import Mathlib

/-!
Verification of the PyMca `NexusDataSource` / `NexusTools` data-access layer
(`PyMca5/PyMcaCore/NexusDataSource.py`, `PyMca5/PyMcaCore/NexusTools.py`).

Each Python function relevant to the claims is embedded as an executable Lean
definition operating on explicit data (lists, rationals, record structures);
fallible code is embedded with `Except`, numpy arrays as a shape plus an
index-to-value map, and machine loops as structurally recursive functions
(with explicit fuel mirroring the loop bounds where needed).
-/

namespace PyMcaNexus

/-! ## Index/slice arithmetic (`_to_slice_mode`, `_to_index_mode`) -/

/-- `v = 1; for j in ...: v *= shape[j]` — the running product of a list of
dimension sizes. -/
def prodList (l : List Nat) : Nat := l.foldl (· * ·) 1

/-- The leading `R-1` dimensions of a shape (`shape[:-1]`); both loops in the
Python code range over exactly these positions. -/
def sliceDims (shape : List Nat) : List Nat := shape.take (shape.length - 1)

/-- The loop of `_to_slice_mode`: at each position the coordinate is
`reference // v` with `v` the product of the later leading dimensions, and
`reference` is updated to `reference % v`. -/
def toSliceLoop : Nat → List Nat → List Nat
  | _, [] => []
  | reference, _ :: ds =>
      (reference / prodList ds) :: toSliceLoop (reference % prodList ds) ds

/-- `_to_slice_mode(single_idx, shape)` from `NexusDataSource.py`: a flat index
over the leading `R-1` dimensions becomes an `(R-1)`-tuple of coordinates
(shapes of length 2 short-circuit to `[single_idx]`). -/
def to_slice_mode (single_idx : Nat) (shape : List Nat) : List Nat :=
  if shape.length = 2 then [single_idx]
  else toSliceLoop single_idx (sliceDims shape)

/-- The loop of `_to_index_mode`: `single_index += v * slice_idx[i]` with `v`
the product of the later leading dimensions. -/
def toIndexLoop : List Nat → List Nat → Nat
  | [], _ => 0
  | _ :: _, [] => 0
  | c :: cs, _ :: ds => c * prodList ds + toIndexLoop cs ds

/-- `_to_index_mode(slice_idx, shape)` from `NexusDataSource.py` (shapes of
length 2 short-circuit to `slice_idx[0]`). -/
def to_index_mode (slice_idx : List Nat) (shape : List Nat) : Nat :=
  if shape.length = 2 then slice_idx.headD 0
  else toIndexLoop slice_idx (sliceDims shape)

theorem prodList_cons_aux (l : List Nat) (a : Nat) :
    List.foldl (· * ·) a l = a * List.foldl (· * ·) 1 l := by
  induction l generalizing a with
  | nil => simp
  | cons b t ih =>
      simp only [List.foldl_cons]
      rw [ih (a * b), ih (1 * b)]
      ring

theorem prodList_cons (a : Nat) (l : List Nat) :
    prodList (a :: l) = a * prodList l := by
  simp only [prodList, List.foldl_cons]
  rw [prodList_cons_aux l (1 * a)]
  ring

theorem prodList_nil : prodList [] = 1 := rfl

/-- Round trip of the two loops over an arbitrary list of leading dimensions. -/
theorem toIndexLoop_toSliceLoop (lead : List Nat) :
    ∀ k : Nat, k < prodList lead →
      toIndexLoop (toSliceLoop k lead) lead = k := by
  induction lead with
  | nil =>
      intro k hk
      rw [prodList_nil] at hk
      interval_cases k
      rfl
  | cons d ds ih =>
      intro k hk
      rw [prodList_cons] at hk
      have hP : prodList ds ≠ 0 := by
        intro h0
        rw [h0, Nat.mul_zero] at hk
        exact Nat.not_lt_zero k hk
      have hmod : k % prodList ds < prodList ds :=
        Nat.mod_lt _ (Nat.pos_of_ne_zero hP)
      simp only [toSliceLoop, toIndexLoop]
      rw [ih (k % prodList ds) hmod, Nat.mul_comm]
      exact Nat.div_add_mod k (prodList ds)

/-- C1. For every shape of rank `R ≥ 2` and every flat index
`k < ∏ shape[:-1]`, `_to_index_mode (_to_slice_mode k shape) shape = k`:
the two index mappings are mutually inverse over the valid range. -/
theorem to_index_mode_to_slice_mode (shape : List Nat) (k : Nat)
    (hrank : 2 ≤ shape.length) (hk : k < prodList (sliceDims shape)) :
    to_index_mode (to_slice_mode k shape) shape = k := by
  by_cases h2 : shape.length = 2
  · simp [to_slice_mode, to_index_mode, h2]
  · simp only [to_slice_mode, to_index_mode, if_neg h2]
    exact toIndexLoop_toSliceLoop (sliceDims shape) k hk

/-- C1 witness: the round trip holds at the concrete input
`k = 3`, `shape = (4, 5, 2048)` (and `3 < 4 * 5`). -/
theorem to_index_mode_to_slice_mode_witness :
    2 ≤ ([4, 5, 2048] : List Nat).length ∧
      3 < prodList (sliceDims [4, 5, 2048]) ∧
      to_index_mode (to_slice_mode 3 [4, 5, 2048]) [4, 5, 2048] = 3 :=
  ⟨by decide, by decide,
    to_index_mode_to_slice_mode [4, 5, 2048] 3 (by decide) (by decide)⟩

/-! ## A shallow model of numpy arrays

A (rational-valued) numpy array is a shape together with a map from
multi-indices to values; only indices pointwise below the shape are
meaningful.  `sum(axis=0)`, full `.sum()`, scalar division and integer
indexing are embedded below exactly as `getDataObject` uses them. -/

/-- Python `str.lower()` (ASCII case folding, characterwise). -/
def pyLower (s : String) : String := String.mk (s.data.map Char.toLower)

/-- Python `str.upper()` (ASCII case folding, characterwise). -/
def pyUpper (s : String) : String := String.mk (s.data.map Char.toUpper)

structure NdData where
  shape : List Nat
  val : List Nat → ℚ

/-- `mcaData.shape[0]` (only read when the rank is positive). -/
def headDim (d : NdData) : Nat := d.shape.headD 1

/-- `numpy.sum(data, axis=0)`: drop the first dimension, summing over it. -/
def mcaSumStep (d : NdData) : NdData :=
  match d.shape with
  | [] => d
  | n :: rest => ⟨rest, fun ix => ∑ i ∈ Finset.range n, d.val (i :: ix)⟩

/-- `data / q` (elementwise scalar division, as in `mcaData /= divider`). -/
def ndDivScalar (d : NdData) (q : ℚ) : NdData :=
  ⟨d.shape, fun ix => d.val ix / q⟩

/-- `data[idx]` for an integer `idx`: peel one leading dimension. -/
def pyIndex (d : NdData) (i : Nat) : NdData :=
  match d.shape with
  | [] => d
  | _ :: rest => ⟨rest, fun ix => d.val (i :: ix)⟩

/-- `for idx in slice_idx: mcaData = mcaData[idx]` — the indexing loop used
by the `index(i)`/`slice(...)` MCA reductions in `getDataObject`. -/
def applySliceIdx (d : NdData) (idx : List Nat) : NdData :=
  idx.foldl pyIndex d

/-- `numpy.isscalar` on a read-back dataset: true exactly for rank-0 data. -/
def isScalarNd (d : NdData) : Bool := d.shape.isEmpty

/-- Full `.sum()` (no axis): iterate `sum(axis=0)` once per dimension. -/
def ndSumFuel : Nat → NdData → NdData
  | 0, d => d
  | f + 1, d => if d.shape.isEmpty then d else ndSumFuel f (mcaSumStep d)

def ndSumAll (d : NdData) : NdData := ndSumFuel d.shape.length d

/-! ## The `avg`/`average`/`sum` MCA reduction of `getDataObject`
(`NexusDataSource.py` lines 403-424). -/

/-- `while len(mcaData.shape) > 1: divider *= mcaData.shape[0];
mcaData = mcaData.sum(axis=0)` — fuelled by the rank, which bounds the
number of iterations. -/
def collapseWhile : Nat → NdData → ℚ → NdData × ℚ
  | 0, d, divider => (d, divider)
  | fuel + 1, d, divider =>
      if 1 < d.shape.length then
        collapseWhile fuel (mcaSumStep d) (divider * (headDim d : ℚ))
      else (d, divider)

/-- The counts-reduction of the `avg`/`average`/`sum` branch: collapse all
leading dimensions by summation, accumulating `divider`, then divide by
`divider` unless the (lowercased) mode is exactly `"sum"`.  Returns the
reduced data together with the final `divider` (still in scope for the
live-time handling that follows it). -/
def mcaReduceData (mcaselectiontype : String) (mcaData : NdData) : NdData × ℚ :=
  if 1 < mcaData.shape.length then
    let divider : ℚ := 1 * (headDim mcaData : ℚ)
    let d1 := mcaSumStep mcaData
    let p := collapseWhile d1.shape.length d1 divider
    (if pyLower mcaselectiontype ≠ "sum" then ndDivScalar p.1 p.2 else p.1, p.2)
  else (mcaData, 1)

/-- The `McaLiveTime` handling of the same branch: an already-scalar live
time skips the `.sum()`, a non-scalar one is collapsed to its full sum; in
both cases the result is divided by `divider` unless the (lowercased) mode
is exactly `"sum"`. -/
def mcaReduceLiveTime (mcaselectiontype : String) (divider : ℚ)
    (liveTime : NdData) : NdData :=
  let lt1 := if isScalarNd liveTime then liveTime else ndSumAll liveTime
  if pyLower mcaselectiontype ≠ "sum" then ndDivScalar lt1 divider else lt1

/-- The mathematical collapse of all leading dimensions: iterated axis-0
summation, one step per leading dimension. -/
def leadSum : List Nat → (List Nat → ℚ) → (List Nat → ℚ)
  | [], v => v
  | d :: ds, v => leadSum ds (fun ix => ∑ i ∈ Finset.range d, v (i :: ix))

/-- The collapse loop on a dataset of any rank: starting from shape
`lead ++ [c]`, it performs one axis-0 summation per leading dimension and
multiplies the running divider by each consumed dimension, ending with the
rank-1 iterated sum and the divider scaled by the product of all leading
dimensions (the total collapsed element count per channel). -/
theorem collapseWhile_spec :
    ∀ (lead : List Nat) (c : Nat) (v : List Nat → ℚ) (dv : ℚ) (fuel : Nat),
      lead.length ≤ fuel →
      collapseWhile fuel ⟨lead ++ [c], v⟩ dv =
        (⟨[c], leadSum lead v⟩, dv * ((prodList lead : Nat) : ℚ)) := by
  intro lead
  induction lead with
  | nil =>
      intro c v dv fuel _
      cases fuel with
      | zero => simp [collapseWhile, leadSum, prodList_nil]
      | succ f =>
          rw [collapseWhile, if_neg (by simp)]
          simp [leadSum, prodList_nil]
  | cons d ds ih =>
      intro c v dv fuel hf
      cases fuel with
      | zero => simp at hf
      | succ f =>
          rw [collapseWhile, if_pos (by simp)]
          have hstep : mcaSumStep ⟨(d :: ds) ++ [c], v⟩ =
              ⟨ds ++ [c], fun ix => ∑ i ∈ Finset.range d, v (i :: ix)⟩ := rfl
          have hhd : headDim ⟨(d :: ds) ++ [c], v⟩ = d := rfl
          rw [hstep, hhd, ih c _ _ f (by simpa using hf)]
          simp only [Prod.mk.injEq]
          refine ⟨rfl, ?_⟩
          rw [prodList_cons]
          push_cast
          ring

/-- C2 counterexample: for a counts cube of shape `(10, 2048)` under `avg`,
an already-scalar live time does *not* pass through unchanged: the code
divides it by the collapsed element count `10` (here `10` becomes `1`). -/
theorem mca_avg_scalar_livetime_changed :
    (mcaReduceLiveTime "avg"
        (mcaReduceData "avg" ⟨[10, 2048], fun _ => 1⟩).2
        ⟨[], fun _ => 10⟩).val []
      ≠ (NdData.mk [] (fun _ => 10)).val [] := by
  have h : pyLower "avg" = "avg" := rfl
  have hne : ("avg" : String) ≠ "sum" := by decide
  simp [mcaReduceData, mcaReduceLiveTime, collapseWhile, mcaSumStep,
    headDim, ndDivScalar, ndSumAll, ndSumFuel, isScalarNd, h, hne]

/-- C2 (amended): for a counts array of any rank at least 2 — shape
`(d :: ds) ++ [c]` — under mode `avg`/`average`/`sum`, `getDataObject`
collapses all leading dimensions by iterated axis-0 summation, the divider
accumulates to the total collapsed element count `∏ (d :: ds)`, and the
result spectrum has shape `[c]` and equals the collapsed sum divided by that
count unless the mode is exactly `sum`; a rank-1 live-time array becomes its
total sum divided the same way; an already-scalar live time skips the
summation but is *also* divided by the collapsed element count unless the
mode is exactly `sum`. -/
theorem mca_avg_sum_reduction (mode : String) (d c n : Nat) (ds : List Nat)
    (cube ltArr ltScalar : NdData)
    (hmode : pyLower mode ∈ ["avg", "average", "sum"])
    (hcube : cube.shape = (d :: ds) ++ [c])
    (hArr : ltArr.shape = [n])
    (hScalar : ltScalar.shape = []) :
    (mcaReduceData mode cube).2 = ((prodList (d :: ds) : Nat) : ℚ) ∧
    (mcaReduceData mode cube).1.shape = [c] ∧
    (∀ ix, (mcaReduceData mode cube).1.val ix =
        leadSum (d :: ds) cube.val ix /
          (if pyLower mode = "sum" then 1
            else ((prodList (d :: ds) : Nat) : ℚ))) ∧
    (mcaReduceLiveTime mode (mcaReduceData mode cube).2 ltArr).shape = [] ∧
    (mcaReduceLiveTime mode (mcaReduceData mode cube).2 ltArr).val [] =
        (∑ i ∈ Finset.range n, ltArr.val [i]) /
          (if pyLower mode = "sum" then 1
            else ((prodList (d :: ds) : Nat) : ℚ)) ∧
    (mcaReduceLiveTime mode (mcaReduceData mode cube).2 ltScalar).val [] =
        ltScalar.val [] /
          (if pyLower mode = "sum" then 1
            else ((prodList (d :: ds) : Nat) : ℚ)) := by
  clear hmode
  obtain ⟨csh, cv⟩ := cube
  obtain ⟨ash, av⟩ := ltArr
  obtain ⟨ssh, sv⟩ := ltScalar
  simp only at hcube hArr hScalar
  subst hcube; subst hArr; subst hScalar
  have hred : mcaReduceData mode ⟨(d :: ds) ++ [c], cv⟩ =
      (if pyLower mode ≠ "sum"
        then ndDivScalar ⟨[c], leadSum (d :: ds) cv⟩
          ((prodList (d :: ds) : Nat) : ℚ)
        else ⟨[c], leadSum (d :: ds) cv⟩,
        ((prodList (d :: ds) : Nat) : ℚ)) := by
    simp only [mcaReduceData]
    rw [if_pos (by simp)]
    have hstep : mcaSumStep ⟨(d :: ds) ++ [c], cv⟩ =
        ⟨ds ++ [c], fun ix => ∑ i ∈ Finset.range d, cv (i :: ix)⟩ := rfl
    have hhd : headDim ⟨(d :: ds) ++ [c], cv⟩ = d := rfl
    rw [hstep, hhd,
      collapseWhile_spec ds c (fun ix => ∑ i ∈ Finset.range d, cv (i :: ix))
        (1 * (d : ℚ)) _ (by simp)]
    have hP : (1 : ℚ) * (d : ℚ) * ((prodList ds : Nat) : ℚ) =
        ((prodList (d :: ds) : Nat) : ℚ) := by
      rw [prodList_cons]
      push_cast
      ring
    rw [hP]
    have hls : leadSum ds (fun ix => ∑ i ∈ Finset.range d, cv (i :: ix)) =
        leadSum (d :: ds) cv := rfl
    rw [hls]
  rw [hred]
  by_cases hm : pyLower mode = "sum" <;>
    simp [mcaReduceLiveTime, ndDivScalar, ndSumAll, ndSumFuel, isScalarNd,
      mcaSumStep, hm]

/-- C2 witness: the amended reduction behaviour at the concrete inputs of the
claim (`avg`, cube of shape `(10, 2048)` — i.e. `d = 10`, `ds = []`,
`c = 2048` with `∏ = 10` — a length-10 live-time array and a scalar live
time). -/
theorem mca_avg_sum_reduction_witness :
    (pyLower "avg" ∈ ["avg", "average", "sum"]) ∧
    ((NdData.mk [10, 2048] (fun _ => (1 : ℚ))).shape =
      ((10 : Nat) :: []) ++ [2048]) ∧
    ((mcaReduceData "avg" ⟨[10, 2048], fun _ => (1 : ℚ)⟩).2 =
        ((prodList (10 :: []) : Nat) : ℚ) ∧
      (mcaReduceData "avg" ⟨[10, 2048], fun _ => (1 : ℚ)⟩).1.shape = [2048] ∧
      (∀ ix, (mcaReduceData "avg" ⟨[10, 2048], fun _ => (1 : ℚ)⟩).1.val ix =
          leadSum (10 :: []) (NdData.mk [10, 2048] (fun _ => (1 : ℚ))).val ix /
            (if pyLower "avg" = "sum" then 1
              else ((prodList (10 :: []) : Nat) : ℚ))) ∧
      (mcaReduceLiveTime "avg"
          (mcaReduceData "avg" ⟨[10, 2048], fun _ => (1 : ℚ)⟩).2
          ⟨[10], fun _ => 2⟩).shape = [] ∧
      (mcaReduceLiveTime "avg"
          (mcaReduceData "avg" ⟨[10, 2048], fun _ => (1 : ℚ)⟩).2
          ⟨[10], fun _ => 2⟩).val [] =
        (∑ i ∈ Finset.range 10,
            (NdData.mk [10] (fun _ => (2 : ℚ))).val [i]) /
          (if pyLower "avg" = "sum" then 1
            else ((prodList (10 :: []) : Nat) : ℚ)) ∧
      (mcaReduceLiveTime "avg"
          (mcaReduceData "avg" ⟨[10, 2048], fun _ => (1 : ℚ)⟩).2
          ⟨[], fun _ => 10⟩).val [] =
        (NdData.mk [] (fun _ => (10 : ℚ))).val [] /
          (if pyLower "avg" = "sum" then 1
            else ((prodList (10 :: []) : Nat) : ℚ))) :=
  ⟨by decide, rfl,
    mca_avg_sum_reduction "avg" 10 2048 10 [] ⟨[10, 2048], fun _ => 1⟩
      ⟨[10], fun _ => 2⟩ ⟨[], fun _ => 10⟩ (by decide) rfl rfl rfl⟩

theorem prodList_append (a b : List Nat) :
    prodList (a ++ b) = prodList a * prodList b := by
  induction a with
  | nil => simp [prodList_nil]
  | cons x t ih => simp [prodList_cons, ih]; ring

theorem toSliceLoop_length (k : Nat) (lead : List Nat) :
    (toSliceLoop k lead).length = lead.length := by
  induction lead generalizing k with
  | nil => rfl
  | cons d ds ih => simp [toSliceLoop, ih]

theorem prodList_drop_dvd (l : List Nat) (i : Nat) :
    prodList (l.drop i) ∣ prodList l := by
  refine ⟨prodList (l.take i), ?_⟩
  conv_lhs => rw [← List.take_append_drop i l]
  rw [prodList_append]
  ring

/-- Positional characterization of the `_to_slice_mode` loop: the `i`-th
coordinate is the running remainder divided by the product of the later
leading dimensions, the remainder being the flat index modulo the product of
the dimensions from position `i` on. -/
theorem toSliceLoop_getD (lead : List Nat) :
    ∀ k, k < prodList lead → ∀ i, i < lead.length →
      (toSliceLoop k lead).getD i 0 =
        k % prodList (lead.drop i) / prodList (lead.drop (i + 1)) := by
  induction lead with
  | nil => intro k _ i hi; simp at hi
  | cons d ds ih =>
      intro k hk i hi
      rw [prodList_cons] at hk
      have hP : 0 < prodList ds := by
        rcases Nat.eq_zero_or_pos (prodList ds) with h0 | h
        · rw [h0, Nat.mul_zero] at hk; exact absurd hk (Nat.not_lt_zero k)
        · exact h
      cases i with
      | zero =>
          simp only [toSliceLoop, List.getD_cons_zero, List.drop_zero,
            List.drop_succ_cons, List.drop_zero]
          rw [prodList_cons, Nat.mod_eq_of_lt hk]
      | succ i =>
          simp only [toSliceLoop, List.getD_cons_succ, List.drop_succ_cons]
          rw [ih (k % prodList ds) (Nat.mod_lt _ hP) i (by
            simpa using Nat.lt_of_succ_lt_succ hi)]
          congr 1
          exact Nat.mod_mod_of_dvd k (prodList_drop_dvd ds i)

/-- C8. `_to_slice_mode` is most-significant-first mixed-radix decomposition:
each coordinate is the remainder divided by the product of the later leading
dimensions, the remainder updated by modulo; concretely
`toSlice(3, (4,5,2048)) = [0,3]`, and applying the resulting slice indices to
a dataset of shape `(4,5,2048)` (the `index(3)` MCA selection) yields the
spectrum `data[0, 3, :]`. -/
theorem to_slice_mode_mixed_radix (shape : List Nat) (k : Nat)
    (hrank : 2 ≤ shape.length) (hk : k < prodList (sliceDims shape)) :
    ((to_slice_mode k shape).length = shape.length - 1 ∧
      ∀ i, i < shape.length - 1 →
        (to_slice_mode k shape).getD i 0 =
          k % prodList ((sliceDims shape).drop i) /
            prodList ((sliceDims shape).drop (i + 1))) ∧
    to_slice_mode 3 [4, 5, 2048] = [0, 3] ∧
    ∀ v : List Nat → ℚ,
      applySliceIdx ⟨[4, 5, 2048], v⟩ (to_slice_mode 3 [4, 5, 2048]) =
        ⟨[2048], fun ix => v (0 :: 3 :: ix)⟩ := by
  refine ⟨⟨?_, ?_⟩, rfl, fun v => rfl⟩
  · have hlen : (sliceDims shape).length = shape.length - 1 := by
      simp [sliceDims]
    by_cases h2 : shape.length = 2
    · simp [to_slice_mode, h2]
    · simp only [to_slice_mode, if_neg h2]
      rw [toSliceLoop_length, hlen]
  · intro i hi
    have hlen : (sliceDims shape).length = shape.length - 1 := by
      simp [sliceDims]
    by_cases h2 : shape.length = 2
    · have hi0 : i = 0 := by omega
      subst hi0
      obtain ⟨d0, d1, hsh⟩ : ∃ d0 d1, shape = [d0, d1] := by
        match shape, h2 with
        | [d0, d1], _ => exact ⟨d0, d1, rfl⟩
      subst hsh
      have hts : to_slice_mode k [d0, d1] = [k] := by simp [to_slice_mode]
      have hsd : sliceDims [d0, d1] = [d0] := rfl
      have hd0 : prodList [d0] = d0 := by
        rw [prodList_cons, prodList_nil, Nat.mul_one]
      have hk' : k < d0 := by rw [hsd, hd0] at hk; exact hk
      rw [hts, hsd]
      simp only [List.getD_cons_zero, List.drop_zero, List.drop_succ_cons,
        List.drop_nil]
      rw [hd0, prodList_nil, Nat.mod_eq_of_lt hk', Nat.div_one]
    · simp only [to_slice_mode, if_neg h2]
      exact toSliceLoop_getD (sliceDims shape) k hk i (by omega)

/-- C8 witness: the characterization instantiated at `k = 3`,
`shape = (4, 5, 2048)`. -/
theorem to_slice_mode_mixed_radix_witness :
    2 ≤ ([4, 5, 2048] : List Nat).length ∧
      3 < prodList (sliceDims [4, 5, 2048]) ∧
      (((to_slice_mode 3 [4, 5, 2048]).length = ([4, 5, 2048] : List Nat).length - 1 ∧
        ∀ i, i < ([4, 5, 2048] : List Nat).length - 1 →
          (to_slice_mode 3 [4, 5, 2048]).getD i 0 =
            3 % prodList ((sliceDims [4, 5, 2048]).drop i) /
              prodList ((sliceDims [4, 5, 2048]).drop (i + 1))) ∧
      to_slice_mode 3 [4, 5, 2048] = [0, 3] ∧
      ∀ v : List Nat → ℚ,
        applySliceIdx ⟨[4, 5, 2048], v⟩ (to_slice_mode 3 [4, 5, 2048]) =
          ⟨[2048], fun ix => v (0 :: 3 :: ix)⟩) :=
  ⟨by decide, by decide,
    to_slice_mode_mixed_radix [4, 5, 2048] 3 (by decide) (by decide)⟩

/-! ## 1D scan-length reconciliation (`NexusDataSource.py` lines 611-635)

`output.y`/`output.x`/`output.m` are lists of 1D arrays; an absent role is
falsy, which conflates `None` with the empty list, so a role is modelled as a
`List (List ℚ)` with `[]` meaning "absent".  The log call is modelled by the
level it would use. -/

inductive LogLevel where
  | silent
  | info
  | warning
deriving DecidableEq

/-- The asynchronous-writing reconciliation block of `getDataObject` for 1D
selections: compute the minimum length and the `delta` diagnostic, log
according to `delta`, and truncate every array of every present role to the
minimum length — but only when `delta > 0`. -/
def reconcile1D (y x m : List (List ℚ)) :
    List (List ℚ) × List (List ℚ) × List (List ℚ) × LogLevel :=
  if y ≠ [] then
    let ylength := (y.headD []).length
    let length1 :=
      if x ≠ [] then min ylength (x.headD []).length else ylength
    let delta1 : Int :=
      if x ≠ [] then ((ylength : Int) - ((x.headD []).length : Int)).natAbs
      else 0
    let length2 :=
      if m ≠ [] then min length1 (m.headD []).length else length1
    let delta2 : Int :=
      if m ≠ [] then max delta1 ((ylength : Int) - ((m.headD []).length : Int))
      else delta1
    let lvl :=
      if delta2 > 1 then LogLevel.warning
      else if delta2 = 1 then LogLevel.info
      else LogLevel.silent
    if delta2 > 0 then
      (y.map (fun a => a.take length2), x.map (fun a => a.take length2),
        m.map (fun a => a.take length2), lvl)
    else (y, x, m, lvl)
  else (y, x, m, LogLevel.silent)

/-- C3 counterexample: with `y` of 2 points, no `x`, and `m` of 3 points the
minimum length across present arrays is 2, yet the code computes
`delta = max(0, 2 - 3) = 0` and truncates nothing: `m` keeps its 3 points
instead of being cut to the minimum. -/
theorem reconcile1D_monitor_not_truncated :
    reconcile1D [[1, 2]] [] [[1, 2, 3]] =
      ([[1, 2]], [], [[1, 2, 3]], LogLevel.silent) ∧
    ([[(1 : ℚ), 2, 3]] : List (List ℚ)) ≠ [[1, 2]] := by
  constructor
  · simp [reconcile1D]
  · simp

/-- C3 (amended): with all of `y`, `x`, `m` present, the code computes
`delta = max |ylen - xlen| (ylen - mlen)` (the monitor difference is *not*
taken in absolute value); when `delta > 0` every array is truncated to the
minimum length across the three arrays, with an `info`-level log exactly
when `delta = 1` and a `warning`-level log when `delta > 1`; when
`delta ≤ 0` (e.g. a monitor longer than `y` with `x` matching `y`) nothing
is truncated at all.  The same holds with `x` absent, where
`delta = max 0 (ylen - mlen)` — in particular a monitor longer than `y`
is then never truncated. -/
theorem reconcile1D_behaviour (ya xa ma : List ℚ) :
    (0 < max (((ya.length : Int) - (xa.length : Int)).natAbs : Int)
        ((ya.length : Int) - (ma.length : Int)) →
      reconcile1D [ya] [xa] [ma] =
        ([ya.take (min ya.length (min xa.length ma.length))],
          [xa.take (min ya.length (min xa.length ma.length))],
          [ma.take (min ya.length (min xa.length ma.length))],
          if 1 < max (((ya.length : Int) - (xa.length : Int)).natAbs : Int)
              ((ya.length : Int) - (ma.length : Int)) then LogLevel.warning
          else LogLevel.info) ∧
      (ya.take (min ya.length (min xa.length ma.length))).length =
          min ya.length (min xa.length ma.length) ∧
      (xa.take (min ya.length (min xa.length ma.length))).length =
          min ya.length (min xa.length ma.length) ∧
      (ma.take (min ya.length (min xa.length ma.length))).length =
          min ya.length (min xa.length ma.length)) ∧
    (max (((ya.length : Int) - (xa.length : Int)).natAbs : Int)
        ((ya.length : Int) - (ma.length : Int)) ≤ 0 →
      reconcile1D [ya] [xa] [ma] = ([ya], [xa], [ma], LogLevel.silent)) ∧
    (0 < max (0 : Int) ((ya.length : Int) - (ma.length : Int)) →
      reconcile1D [ya] [] [ma] =
        ([ya.take (min ya.length ma.length)], [],
          [ma.take (min ya.length ma.length)],
          if 1 < max (0 : Int) ((ya.length : Int) - (ma.length : Int))
          then LogLevel.warning else LogLevel.info)) ∧
    (max (0 : Int) ((ya.length : Int) - (ma.length : Int)) ≤ 0 →
      reconcile1D [ya] [] [ma] = ([ya], [], [ma], LogLevel.silent)) := by
  have hmin : min (min ya.length xa.length) ma.length =
      min ya.length (min xa.length ma.length) := by omega
  refine ⟨?_, ?_, ?_, ?_⟩
  · intro hpos
    refine ⟨?_, ?_, ?_, ?_⟩
    · simp only [reconcile1D]
      rw [if_pos (by simp : ([ya] : List (List ℚ)) ≠ [])]
      simp only [List.headD_cons,
        if_pos (by simp : ([xa] : List (List ℚ)) ≠ []),
        if_pos (by simp : ([ma] : List (List ℚ)) ≠ [])]
      rw [hmin, if_pos hpos]
      simp only [List.map_cons, List.map_nil]
      rcases lt_or_le 1 (max (((ya.length : Int) - (xa.length : Int)).natAbs : Int)
          ((ya.length : Int) - (ma.length : Int))) with h1 | h1
      · rw [if_pos h1, if_pos h1]
      · have h2 : max (((ya.length : Int) - (xa.length : Int)).natAbs : Int)
            ((ya.length : Int) - (ma.length : Int)) = 1 := by omega
        rw [if_neg (by omega), if_pos h2, if_neg (by omega)]
    · rw [List.length_take]; omega
    · rw [List.length_take]; omega
    · rw [List.length_take]; omega
  · intro hle
    simp only [reconcile1D]
    rw [if_pos (by simp : ([ya] : List (List ℚ)) ≠ [])]
    simp only [List.headD_cons,
      if_pos (by simp : ([xa] : List (List ℚ)) ≠ []),
      if_pos (by simp : ([ma] : List (List ℚ)) ≠ [])]
    rw [if_neg (by omega), if_neg (by omega), if_neg (by omega)]
  · intro hpos
    simp only [reconcile1D]
    rw [if_pos (by simp : ([ya] : List (List ℚ)) ≠ [])]
    simp only [List.headD_cons,
      if_neg (by simp : ¬ (([] : List (List ℚ)) ≠ [])),
      if_pos (by simp : ([ma] : List (List ℚ)) ≠ [])]
    rw [if_pos hpos]
    simp only [List.map_cons, List.map_nil]
    rcases lt_or_le 1 (max (0 : Int)
        ((ya.length : Int) - (ma.length : Int))) with h1 | h1
    · rw [if_pos h1, if_pos h1]
    · have h2 : max (0 : Int) ((ya.length : Int) - (ma.length : Int)) = 1 := by
        omega
      rw [if_neg (by omega), if_pos h2, if_neg (by omega)]
  · intro hle
    simp only [reconcile1D]
    rw [if_pos (by simp : ([ya] : List (List ℚ)) ≠ [])]
    simp only [List.headD_cons,
      if_neg (by simp : ¬ (([] : List (List ℚ)) ≠ [])),
      if_pos (by simp : ([ma] : List (List ℚ)) ≠ [])]
    rw [if_neg (by omega), if_neg (by omega), if_neg (by omega)]

/-- C3 witness: `y` of 100 points, `x` of 99, `m` of 100: `delta = 1`, and all
three arrays come back truncated to 99 points with an `info`-level
(single-point-stripped) log. -/
theorem reconcile1D_behaviour_witness :
    (0 : Int) < max ((((List.replicate 100 (0 : ℚ)).length : Int) -
        ((List.replicate 99 (0 : ℚ)).length : Int)).natAbs : Int)
        (((List.replicate 100 (0 : ℚ)).length : Int) -
          ((List.replicate 100 (0 : ℚ)).length : Int)) ∧
    reconcile1D [List.replicate 100 (0 : ℚ)] [List.replicate 99 (0 : ℚ)]
        [List.replicate 100 (0 : ℚ)] =
      ([(List.replicate 100 (0 : ℚ)).take
          (min (List.replicate 100 (0 : ℚ)).length
            (min (List.replicate 99 (0 : ℚ)).length
              (List.replicate 100 (0 : ℚ)).length))],
        [(List.replicate 99 (0 : ℚ)).take
          (min (List.replicate 100 (0 : ℚ)).length
            (min (List.replicate 99 (0 : ℚ)).length
              (List.replicate 100 (0 : ℚ)).length))],
        [(List.replicate 100 (0 : ℚ)).take
          (min (List.replicate 100 (0 : ℚ)).length
            (min (List.replicate 99 (0 : ℚ)).length
              (List.replicate 100 (0 : ℚ)).length))],
        if 1 < max ((((List.replicate 100 (0 : ℚ)).length : Int) -
            ((List.replicate 99 (0 : ℚ)).length : Int)).natAbs : Int)
            (((List.replicate 100 (0 : ℚ)).length : Int) -
              ((List.replicate 100 (0 : ℚ)).length : Int)) then LogLevel.warning
        else LogLevel.info) :=
  ⟨by simp,
    ((reconcile1D_behaviour (List.replicate 100 0) (List.replicate 99 0)
      (List.replicate 100 0)).1 (by simp)).1⟩

/-! ## `get_family_pattern` (`NexusDataSource.py` lines 88-129) -/

/-- Decimal digit → character, as produced by Python `'%d'` formatting. -/
def digitChar (r : Nat) : Char :=
  match r with
  | 0 => '0' | 1 => '1' | 2 => '2' | 3 => '3' | 4 => '4'
  | 5 => '5' | 6 => '6' | 7 => '7' | 8 => '8' | 9 => '9'
  | _ => '*'

/-- Decimal rendering of a positive number, fuelled (structural so that it
evaluates in the kernel). -/
def natToCharsAux : Nat → Nat → List Char
  | 0, _ => []
  | fuel + 1, n =>
      if n = 0 then [] else natToCharsAux fuel (n / 10) ++ [digitChar (n % 10)]

/-- Python `str(n)` / `'%d' % n` for a natural number. -/
def natToChars (n : Nat) : List Char :=
  if n = 0 then ['0'] else natToCharsAux (n + 1) n

/-- `fmt = '%dd' % delta; fmt = ('%0' if delta > 1 else '%') + fmt` — the
printf placeholder built by `get_family_pattern`. -/
def pctFmt (delta : Nat) : List Char :=
  if 1 < delta then '%' :: '0' :: (natToChars delta ++ ['d'])
  else '%' :: (natToChars delta ++ ['d'])

/-- `for i in range(start, stop): if p(i): break` — returns the final value
of the loop variable (`dflt` models the variable's previous value, used when
the range is empty; on exhaustion the last executed index remains). Fuelled
with `stop - start`. -/
def pyForBreak : Nat → Nat → Nat → (Nat → Bool) → Nat
  | 0, dflt, _, _ => dflt
  | fuel + 1, dflt, start, p =>
      if p start then start else pyForBreak fuel start (start + 1) p

/-- The backwards digit scan of `get_family_pattern`:
`while (i1 - delta): if name2[i1-delta].isdigit(): delta += 1
else: (delta -= 1 if delta > 1); break`. -/
def deltaLoop : Nat → List Char → Nat → Nat → Nat
  | 0, _, _, delta => delta
  | fuel + 1, name2, i1, delta =>
      if i1 - delta ≠ 0 then
        if (name2.getD (i1 - delta) ' ').isDigit then
          deltaLoop fuel name2 i1 (delta + 1)
        else if 1 < delta then delta - 1 else delta
      else delta

/-- The body of `get_family_pattern` over the two names' character lists:
find the first mismatch position `i0`, the first position `i1 ≥ i0` where the
names agree again, count the run of decimal digits of `name2` backwards from
`i1`, and splice a printf placeholder between `name1[0:i1-delta]` and
`name2[i1:]`. -/
def get_family_pattern_core (name1 name2 : List Char) : List Char :=
  if name1 = name2 then name1
  else
    let i0 := pyForBreak name1.length 0 0
      (fun i => decide (name2.length ≤ i) ||
        decide (¬ name1.getD i ' ' = name2.getD i ' '))
    let i1 := pyForBreak (name1.length - i0) i0 i0
      (fun i => decide (name2.length ≤ i) ||
        decide (name1.getD i ' ' = name2.getD i ' '))
    if 0 < i1 then
      let delta := deltaLoop i1 name2 i1 1
      name1.take (i1 - delta) ++ pctFmt delta ++ name2.drop i1
    else name1

/-- `get_family_pattern(filelist)` from `NexusDataSource.py` (Python indexes
`filelist[0]` and `filelist[1]`; missing entries are totalized to the empty
string). -/
def get_family_pattern (filelist : List String) : String :=
  String.mk (get_family_pattern_core
    (filelist.headD "").data ((filelist.drop 1).headD "").data)

theorem pyForBreak_break (p : Nat → Bool) :
    ∀ fuel start dflt j, start ≤ j → j < start + fuel →
      (∀ i, start ≤ i → i < j → p i = false) → p j = true →
      pyForBreak fuel dflt start p = j := by
  intro fuel
  induction fuel with
  | zero => intro start dflt j h1 h2 _ _; omega
  | succ f ih =>
      intro start dflt j h1 h2 hfalse htrue
      by_cases hstart : start = j
      · subst hstart
        simp [pyForBreak, htrue]
      · have hps : p start = false := hfalse start le_rfl (by omega)
        simp only [pyForBreak, hps, Bool.false_eq_true, if_false]
        exact ih (start + 1) start j (by omega) (by omega)
          (fun i hi1 hi2 => hfalse i (by omega) hi2) htrue

/-- The digit scan when every scanned position down to 1 holds a digit: the
loop runs until `i1 - delta = 0` and returns `i1` (no compensating
decrement). -/
theorem deltaLoop_all_digits (name2 : List Char) (i1 : Nat)
    (hdig : ∀ j, 1 ≤ j → j ≤ i1 - 1 → (name2.getD j ' ').isDigit = true) :
    ∀ fuel delta, 1 ≤ delta → delta ≤ i1 → i1 - delta ≤ fuel →
      deltaLoop fuel name2 i1 delta = i1 := by
  intro fuel
  induction fuel with
  | zero =>
      intro delta h1 h2 h3
      have : delta = i1 := by omega
      subst this
      rfl
  | succ f ih =>
      intro delta h1 h2 h3
      by_cases hz : i1 - delta = 0
      · have : delta = i1 := by omega
        subst this
        simp [deltaLoop, hz]
      · have hd : (name2.getD (i1 - delta) ' ').isDigit = true :=
          hdig (i1 - delta) (by omega) (by omega)
        simp only [deltaLoop, hz, ne_eq, not_false_eq_true, if_true, hd,
          if_pos]
        exact ih (delta + 1) (by omega) (by omega) (by omega)

/-- The digit scan when position `p0 ≥ 1` holds a non-digit and every
position strictly between `p0` and `i1` holds a digit: the loop stops at
`p0` with `delta = i1 - p0`, then decrements once when that is `> 1`. -/
theorem deltaLoop_stops (name2 : List Char) (i1 p0 : Nat)
    (hp0 : 1 ≤ p0)
    (hnd : (name2.getD p0 ' ').isDigit = false)
    (hdig : ∀ j, p0 < j → j ≤ i1 - 1 → (name2.getD j ' ').isDigit = true) :
    ∀ fuel delta, 1 ≤ delta → delta ≤ i1 - p0 → i1 - delta ≤ fuel →
      deltaLoop fuel name2 i1 delta =
        if 1 < i1 - p0 then i1 - p0 - 1 else i1 - p0 := by
  intro fuel
  induction fuel with
  | zero => intro delta h1 h2 h3; omega
  | succ f ih =>
      intro delta h1 h2 h3
      have hz : i1 - delta ≠ 0 := by omega
      by_cases hstop : delta = i1 - p0
      · have hpos : i1 - delta = p0 := by omega
        simp only [deltaLoop, hz, ne_eq, not_false_eq_true, if_true, hpos,
          hnd, Bool.false_eq_true, if_false]
        subst hstop
        rw [if_pos (show ¬ p0 = 0 by omega)]
      · have hd : (name2.getD (i1 - delta) ' ').isDigit = true :=
          hdig (i1 - delta) (by omega) (by omega)
        simp only [deltaLoop, hz, ne_eq, not_false_eq_true, if_true, hd,
          if_pos]
        exact ih (delta + 1) (by omega) (by omega) (by omega)

/-- The core behaviour of `get_family_pattern` on names of the form
`prefix ++ digit-run ++ differing-digit-run ++ suffix`. -/
theorem get_family_pattern_core_spec (q ds m1 m2 s : List Char)
    (hlen : m1.length = m2.length) (hL : 0 < m1.length)
    (hdiff : ∀ j, j < m1.length → m1.getD j ' ' ≠ m2.getD j ' ')
    (hds : ∀ c ∈ ds, c.isDigit = true)
    (hm2 : ∀ c ∈ m2, c.isDigit = true)
    (hqlast : ∀ h : q ≠ [], (q.getLast h).isDigit = false)
    (hs : s ≠ []) :
    get_family_pattern_core ((q ++ ds) ++ (m1 ++ s)) ((q ++ ds) ++ (m2 ++ s)) =
      (if q.length ≤ 1 then
        pctFmt (if q.length = 1 then ds.length + m2.length + 1
          else ds.length + m2.length) ++ s
      else q ++ pctFmt (ds.length + m2.length) ++ s) := by
  have hslen : 0 < s.length := List.length_pos.mpr hs
  set A : List Char := (q ++ ds) ++ (m1 ++ s) with hA
  set B : List Char := (q ++ ds) ++ (m2 ++ s) with hB
  have hPl : (q ++ ds).length = q.length + ds.length := by
    simp
  have hlA : A.length = (q ++ ds).length + (m1.length + s.length) := by
    rw [hA]
    simp only [List.length_append]
  have hlB : B.length = (q ++ ds).length + (m1.length + s.length) := by
    rw [hB]
    simp only [List.length_append]
    omega
  have hAB : ¬ A = B := by
    intro h
    have h2 : m1 ++ s = m2 ++ s := by
      have := h
      rw [hA, hB] at this
      exact List.append_cancel_left this
    have h3 : m1 = m2 := List.append_cancel_right h2
    exact hdiff 0 hL (by rw [h3])
  -- the first loop stops at the first mismatch, position `(q ++ ds).length`
  have hi0 : pyForBreak A.length 0 0
      (fun i => decide (B.length ≤ i) ||
        decide (¬ A.getD i ' ' = B.getD i ' ')) = (q ++ ds).length := by
    apply pyForBreak_break _ _ _ _ _ (Nat.zero_le _) (by omega)
    · intro i _ hi
      have hgA : A.getD i ' ' = (q ++ ds).getD i ' ' :=
        List.getD_append _ _ _ _ hi
      have hgB : B.getD i ' ' = (q ++ ds).getD i ' ' :=
        List.getD_append _ _ _ _ hi
      simp only [Bool.or_eq_false_iff, decide_eq_false_iff_not, Nat.not_le,
        not_not]
      exact ⟨by omega, by rw [hgA, hgB]⟩
    · have hgA : A.getD (q ++ ds).length ' ' = m1.getD 0 ' ' := by
        rw [hA, List.getD_append_right _ _ _ _ le_rfl, Nat.sub_self]
        exact List.getD_append _ _ _ _ hL
      have hgB : B.getD (q ++ ds).length ' ' = m2.getD 0 ' ' := by
        rw [hB, List.getD_append_right _ _ _ _ le_rfl, Nat.sub_self]
        exact List.getD_append _ _ _ _ (by omega)
      simp only [Bool.or_eq_true, decide_eq_true_eq]
      right
      rw [hgA, hgB]
      exact hdiff 0 hL
  -- the second loop stops at the first agreement, `(q ++ ds).length + |m1|`
  have hi1 : pyForBreak (A.length - (q ++ ds).length) (q ++ ds).length
      (q ++ ds).length
      (fun i => decide (B.length ≤ i) ||
        decide (A.getD i ' ' = B.getD i ' ')) =
      (q ++ ds).length + m1.length := by
    apply pyForBreak_break _ _ _ _ _ (by omega) (by omega)
    · intro i hi1 hi2
      have ht : i - (q ++ ds).length < m1.length := by omega
      have hgA : A.getD i ' ' = m1.getD (i - (q ++ ds).length) ' ' := by
        rw [hA, List.getD_append_right _ _ _ _ hi1]
        exact List.getD_append _ _ _ _ ht
      have hgB : B.getD i ' ' = m2.getD (i - (q ++ ds).length) ' ' := by
        rw [hB, List.getD_append_right _ _ _ _ hi1]
        exact List.getD_append _ _ _ _ (by omega)
      simp only [Bool.or_eq_false_iff, decide_eq_false_iff_not, Nat.not_le]
      exact ⟨by omega, by rw [hgA, hgB]; exact hdiff _ ht⟩
    · have hgA : A.getD ((q ++ ds).length + m1.length) ' ' = s.getD 0 ' ' := by
        rw [hA, List.getD_append_right _ _ _ _ (by omega),
          Nat.add_sub_cancel_left, List.getD_append_right _ _ _ _ le_rfl,
          Nat.sub_self]
      have hgB : B.getD ((q ++ ds).length + m1.length) ' ' = s.getD 0 ' ' := by
        rw [hB, List.getD_append_right _ _ _ _ (by omega),
          Nat.add_sub_cancel_left, List.getD_append_right _ _ _ _ (by omega)]
        congr 1
        omega
      simp only [Bool.or_eq_true, decide_eq_true_eq]
      right
      rw [hgA, hgB]
  -- digits of `name2` between `q` and the agreement point
  have hBdig : ∀ j, q.length ≤ j → j < (q ++ ds).length + m2.length →
      (B.getD j ' ').isDigit = true := by
    intro j hj1 hj2
    by_cases hj : j < (q ++ ds).length
    · have hgB : B.getD j ' ' = ds.getD (j - q.length) ' ' := by
        rw [hB, List.getD_append _ _ _ _ hj]
        exact List.getD_append_right _ _ _ _ hj1
      rw [hgB]
      have hlt : j - q.length < ds.length := by omega
      rw [List.getD_eq_getElem _ _ hlt]
      exact hds _ (List.getElem_mem _)
    · have hgB : B.getD j ' ' = m2.getD (j - (q ++ ds).length) ' ' := by
        rw [hB, List.getD_append_right _ _ _ _ (by omega)]
        exact List.getD_append _ _ _ _ (by omega)
      rw [hgB]
      have hlt : j - (q ++ ds).length < m2.length := by omega
      rw [List.getD_eq_getElem _ _ hlt]
      exact hm2 _ (List.getElem_mem _)
  have hdropB : B.drop ((q ++ ds).length + m1.length) = s := by
    have hB2 : B = ((q ++ ds) ++ m2) ++ s := by
      rw [hB]
      simp [List.append_assoc]
    rw [hB2]
    have hl2 : ((q ++ ds) ++ m2).length = (q ++ ds).length + m1.length := by
      simp only [List.length_append]
      omega
    rw [← hl2]
    exact List.drop_left _ _
  simp only [get_family_pattern_core, if_neg hAB]
  rw [hi0, hi1, if_pos (by omega : 0 < (q ++ ds).length + m1.length)]
  rcases Nat.lt_or_ge q.length 2 with hq2 | hq2
  · -- prefix of length 0 or 1: the scan reaches position 0, no decrement
    have hdelta : deltaLoop ((q ++ ds).length + m1.length) B
        ((q ++ ds).length + m1.length) 1 = (q ++ ds).length + m1.length := by
      apply deltaLoop_all_digits B _ _ _ 1 le_rfl (by omega) (by omega)
      intro j hj1 hj2
      exact hBdig j (by omega) (by omega)
    rw [hdelta, Nat.sub_self, List.take_zero, List.nil_append, hdropB]
    rcases Nat.eq_zero_or_pos q.length with hq0 | hq1
    · rw [if_pos (by omega), if_neg (by omega)]
      congr 2
      omega
    · rw [if_pos (by omega), if_pos (by omega)]
      congr 2
      omega
  · -- prefix of length ≥ 2: the scan stops on its last, non-digit character
    have hqne : q ≠ [] := by
      intro h
      rw [h] at hq2
      simp at hq2
    have hnd : (B.getD (q.length - 1) ' ').isDigit = false := by
      have hgB : B.getD (q.length - 1) ' ' = q.getLast hqne := by
        rw [hB, List.getD_append _ _ _ _ (by omega),
          List.getD_append _ _ _ _ (by omega),
          List.getD_eq_getElem _ _ (by omega)]
        exact (List.getLast_eq_getElem _ hqne).symm
      rw [hgB]
      exact hqlast hqne
    have hdelta : deltaLoop ((q ++ ds).length + m1.length) B
        ((q ++ ds).length + m1.length) 1 = ds.length + m1.length := by
      have := deltaLoop_stops B ((q ++ ds).length + m1.length) (q.length - 1)
        (by omega) hnd
        (fun j hj1 hj2 => hBdig j (by omega) (by omega))
        ((q ++ ds).length + m1.length) 1 le_rfl (by omega) (by omega)
      rw [this, if_pos (by omega)]
      omega
    rw [hdelta]
    have htake : A.take ((q ++ ds).length + m1.length - (ds.length + m1.length))
        = q := by
      have hA2 : A = q ++ (ds ++ (m1 ++ s)) := by simp [hA]
      have h1 : (q ++ ds).length + m1.length - (ds.length + m1.length)
          = q.length := by omega
      rw [h1, hA2]
      exact List.take_left _ _
    rw [htake, hdropB, if_neg (by omega), hlen]

/-- C4 counterexample: for `["a1.h5", "a2.h5"]` the claim predicts the
longest common prefix `a`, a one-digit placeholder and the common suffix,
i.e. `"a%1d.h5"`; the code instead returns `"%02d.h5"` (the one-character
prefix is absorbed and the width over-counted, because the backwards digit
scan exits at position 0 without the compensating decrement). -/
theorem get_family_pattern_absorbs_short_prefix :
    get_family_pattern ["a1.h5", "a2.h5"] = "%02d.h5" ∧
      ("%02d.h5" : String) ≠ "a%1d.h5" := by
  constructor
  · decide
  · decide

/-- C4 (amended): on sibling names `q ++ ds ++ m1 ++ s` / `q ++ ds ++ m2 ++ s`
(common prefix `q` ending in a non-digit, common digit run `ds`, equal-length
pointwise-differing digit runs `m1`/`m2`, nonempty common suffix `s`),
`get_family_pattern` returns prefix ++ `%0Nd`/`%Nd` ++ suffix with width
`N = |ds| + |m2|` whenever `q` is empty or at least two characters long; when
`|q| = 1` the backwards scan stops at position 0 without the compensating
decrement, so the width becomes `N + 1` and the one-character prefix is
absorbed into the placeholder. -/
theorem get_family_pattern_spec (q ds m1 m2 s : List Char)
    (hlen : m1.length = m2.length) (hL : 0 < m1.length)
    (hdiff : ∀ j, j < m1.length → m1.getD j ' ' ≠ m2.getD j ' ')
    (hds : ∀ c ∈ ds, c.isDigit = true)
    (hm2 : ∀ c ∈ m2, c.isDigit = true)
    (hqlast : ∀ h : q ≠ [], (q.getLast h).isDigit = false)
    (hs : s ≠ []) :
    get_family_pattern
        [String.mk ((q ++ ds) ++ (m1 ++ s)), String.mk ((q ++ ds) ++ (m2 ++ s))] =
      String.mk
        (if q.length ≤ 1 then
          pctFmt (if q.length = 1 then ds.length + m2.length + 1
            else ds.length + m2.length) ++ s
        else q ++ pctFmt (ds.length + m2.length) ++ s) := by
  show String.mk (get_family_pattern_core
      ((q ++ ds) ++ (m1 ++ s)) ((q ++ ds) ++ (m2 ++ s))) = _
  rw [get_family_pattern_core_spec q ds m1 m2 s hlen hL hdiff hds hm2
    hqlast hs]

/-- C4 witness: the amended description instantiated at
`["scan_0001.h5", "scan_0002.h5"]`, which yields `"scan_%04d.h5"`. -/
theorem get_family_pattern_spec_witness :
    get_family_pattern ["scan_0001.h5", "scan_0002.h5"] = "scan_%04d.h5" := by
  have h := get_family_pattern_spec
    ['s', 'c', 'a', 'n', '_'] ['0', '0', '0'] ['1'] ['2'] ['.', 'h', '5']
    (by decide) (by decide) (by decide) (by decide) (by decide)
    (by decide) (by decide)
  exact h.trans (by decide)

/-! ## Selection-type classification (`NexusDataSource.py` lines 471-480) -/

/-- The `elif` chain of `getDataObject` for non-MCA selections: `SCAN`/`MCA`
are matched after `.upper()`, `"3D"` and `"2D"` exactly (in that order);
anything else raises `TypeError("Unsupported selection type %s")`. -/
def classifySelectiontype (selectiontype : String) : Except String String :=
  if ["SCAN", "MCA"].contains (pyUpper selectiontype) then .ok "1D"
  else if selectiontype = "3D" then .ok "3D"
  else if selectiontype = "2D" then .ok "2D"
  else .error ("Unsupported selection type " ++ selectiontype)

/-- C5 counterexample: `"scan"` is none of the four strings `SCAN`, `MCA`,
`2D`, `3D`, yet `getDataObject` does not raise for it: the uppercased value
matches `SCAN` and the selection is classified as 1D. -/
theorem classify_lowercase_scan_accepted :
    (("scan" : String) ≠ "SCAN" ∧ ("scan" : String) ≠ "MCA" ∧
      ("scan" : String) ≠ "2D" ∧ ("scan" : String) ≠ "3D") ∧
    classifySelectiontype "scan" = .ok "1D" := by
  constructor
  · decide
  · rfl

/-- C5 (amended): `SCAN`/`MCA` are matched case-insensitively (via
uppercasing) and `2D`/`3D` exactly; every selection type whose uppercasing
is neither `SCAN` nor `MCA` and which is not exactly `3D` or `2D` raises the
designated unsupported-selection-type error instead of returning a default
classification. -/
theorem classify_unsupported_raises (selectiontype : String)
    (h1 : pyUpper selectiontype ≠ "SCAN") (h2 : pyUpper selectiontype ≠ "MCA")
    (h3 : selectiontype ≠ "3D") (h4 : selectiontype ≠ "2D") :
    classifySelectiontype selectiontype =
      .error ("Unsupported selection type " ++ selectiontype) := by
  simp [classifySelectiontype, h1, h2, h3, h4]

/-- C5 witness: `"BOGUS"` raises the unsupported-selection-type error. -/
theorem classify_unsupported_raises_witness :
    classifySelectiontype "BOGUS" =
      .error ("Unsupported selection type " ++ "BOGUS") :=
  classify_unsupported_raises "BOGUS" (by decide) (by decide) (by decide)
    (by decide)

/-! ## Decimal rendering/parsing used by the key machinery -/

/-- The numeric value of a digit string, as accumulated by a decimal parser
(the model of Python `int()` below restricts it to all-digit strings). -/
def pyDigitsVal (l : List Char) : Nat :=
  l.foldl (fun a c => 10 * a + (c.toNat - 48)) 0

/-- Parse an all-digit, nonempty character list. -/
def digitsToNat (l : List Char) : Option Nat :=
  if l ≠ [] ∧ l.all Char.isDigit then some (pyDigitsVal l) else none

/-- Python `int(text)` (restricted to the optional-minus, all-digits forms
that the key machinery can encounter; anything else raises `ValueError`,
modelled as `none`). -/
def pyIntOfChars (l : List Char) : Option Int :=
  if l.headD ' ' = '-' then
    (digitsToNat (l.drop 1)).map (fun n => -(n : Int))
  else (digitsToNat l).map (fun n => (n : Int))

/-- `'%d' % i` for a Python integer. -/
def intToChars (i : Int) : List Char :=
  if i < 0 then '-' :: natToChars (-i).toNat else natToChars i.toNat

theorem digitChar_isDigit : ∀ r, r < 10 → (digitChar r).isDigit = true := by
  decide

theorem digitChar_toNat : ∀ r, r < 10 → (digitChar r).toNat - 48 = r := by
  decide

theorem natToCharsAux_digits :
    ∀ fuel n c, c ∈ natToCharsAux fuel n → c.isDigit = true := by
  intro fuel
  induction fuel with
  | zero => intro n c hc; simp [natToCharsAux] at hc
  | succ f ih =>
      intro n c hc
      by_cases hn : n = 0
      · simp [natToCharsAux, hn] at hc
      · rw [natToCharsAux, if_neg hn] at hc
        rcases List.mem_append.mp hc with h | h
        · exact ih _ _ h
        · rcases List.mem_singleton.mp h with rfl
          exact digitChar_isDigit _ (Nat.mod_lt _ (by omega))

theorem natToChars_digits (n : Nat) :
    ∀ c ∈ natToChars n, c.isDigit = true := by
  intro c hc
  by_cases hn : n = 0
  · rw [natToChars, if_pos hn] at hc
    rcases List.mem_singleton.mp hc with rfl
    decide
  · rw [natToChars, if_neg hn] at hc
    exact natToCharsAux_digits _ _ _ hc

theorem natToChars_ne_nil (n : Nat) : natToChars n ≠ [] := by
  by_cases hn : n = 0
  · rw [natToChars, if_pos hn]
    simp
  · rw [natToChars, if_neg hn, natToCharsAux, if_neg hn]
    simp

theorem natToCharsAux_val :
    ∀ fuel n a, n ≤ fuel →
      List.foldl (fun acc c => 10 * acc + (c.toNat - 48)) a
          (natToCharsAux fuel n) =
        a * 10 ^ (natToCharsAux fuel n).length + n := by
  intro fuel
  induction fuel with
  | zero =>
      intro n a hn
      have : n = 0 := by omega
      subst this
      simp [natToCharsAux]
  | succ f ih =>
      intro n a hn
      by_cases h0 : n = 0
      · subst h0
        simp [natToCharsAux]
      · rw [natToCharsAux, if_neg h0]
        rw [List.foldl_append]
        simp only [List.foldl_cons, List.foldl_nil]
        have hdiv : n / 10 ≤ f := by
          have h1 : n / 10 < n := Nat.div_lt_self (by omega) (by omega)
          omega
        rw [ih (n / 10) a hdiv]
        rw [digitChar_toNat _ (Nat.mod_lt _ (by omega))]
        rw [List.length_append, List.length_singleton]
        have key : a * 10 ^ ((natToCharsAux f (n / 10)).length + 1) =
            a * 10 ^ (natToCharsAux f (n / 10)).length * 10 := by ring
        rw [key]
        have hmod := Nat.div_add_mod n 10
        set t := a * 10 ^ (natToCharsAux f (n / 10)).length
        omega

theorem pyDigitsVal_natToChars (n : Nat) : pyDigitsVal (natToChars n) = n := by
  by_cases hn : n = 0
  · subst hn
    decide
  · rw [natToChars, if_neg hn, pyDigitsVal,
      natToCharsAux_val (n + 1) n 0 (by omega)]
    omega

theorem digitsToNat_natToChars (n : Nat) :
    digitsToNat (natToChars n) = some n := by
  rw [digitsToNat, if_pos, pyDigitsVal_natToChars]
  refine ⟨natToChars_ne_nil n, ?_⟩
  rw [List.all_eq_true]
  intro c hc
  exact natToChars_digits n c hc

theorem natToChars_head_not_minus (n : Nat) :
    (natToChars n).headD ' ' ≠ '-' := by
  intro h
  have hne := natToChars_ne_nil n
  have hmem : (natToChars n).headD ' ' ∈ natToChars n := by
    cases hcs : natToChars n with
    | nil => exact absurd hcs hne
    | cons c t => simp [hcs]
  have := natToChars_digits n _ hmem
  rw [h] at this
  simp [Char.isDigit] at this

theorem pyIntOfChars_natToChars (n : Nat) :
    pyIntOfChars (natToChars n) = some (n : Int) := by
  rw [pyIntOfChars, if_neg (natToChars_head_not_minus n),
    digitsToNat_natToChars]
  rfl

theorem intToChars_ofNat (n : Nat) : intToChars (n : Int) = natToChars n := by
  rw [intToChars, if_neg (by omega)]
  simp

theorem natToChars_no_dot (n : Nat) : ∀ c ∈ natToChars n, c ≠ '.' := by
  intro c hc h
  have := natToChars_digits n c hc
  rw [h] at this
  simp [Char.isDigit] at this

/-! ## Python `str.split(".")` -/

def splitOnDot : List Char → List (List Char)
  | [] => [[]]
  | c :: cs =>
      if c = '.' then [] :: splitOnDot cs
      else
        match splitOnDot cs with
        | [] => [[c]]
        | p :: ps => (c :: p) :: ps

theorem splitOnDot_ne_nil : ∀ l, splitOnDot l ≠ [] := by
  intro l
  induction l with
  | nil => simp [splitOnDot]
  | cons c cs ih =>
      rw [splitOnDot]
      by_cases hc : c = '.'
      · simp [hc]
      · rw [if_neg hc]
        cases hs : splitOnDot cs with
        | nil => simp
        | cons p ps => simp

theorem splitOnDot_no_dot (l : List Char) (h : ∀ c ∈ l, c ≠ '.') :
    splitOnDot l = [l] := by
  induction l with
  | nil => rfl
  | cons c cs ih =>
      rw [splitOnDot, if_neg (h c (by simp)),
        ih (fun d hd => h d (by simp [hd]))]

theorem splitOnDot_append (a b : List Char) (ha : ∀ c ∈ a, c ≠ '.') :
    splitOnDot (a ++ '.' :: b) = a :: splitOnDot b := by
  induction a with
  | nil => simp [splitOnDot]
  | cons c cs ih =>
      rw [List.cons_append, splitOnDot, if_neg (ha c (by simp)),
        ih (fun d hd => ha d (by simp [hd]))]

/-! ## The source catalogue (`NexusDataSource.__getSourceInfo`,
`getKeyInfo`, `__getKeyInfo`, and the `selection=None` branch of
`getDataObject`) -/

/-- An opened HDF5 file: the names of the direct children of its root group
(`file["/"].keys()`) and its `.name` attribute. -/
structure H5Obj where
  rootChildren : List String
  name : String

/-- The state of a `NexusDataSource`: the parallel lists `self.sourceName`
and `self._sourceObjectList`. -/
structure NexusDataSource where
  sourceName : List String
  sourceObjectList : List H5Obj

/-- `"%d.%d" % (i, n)` — a catalogue key. -/
def mkKey (i n : Nat) : String :=
  String.mk (natToChars i ++ '.' :: natToChars n)

/-- The nested key-generation loop of `__getSourceInfo`: for the file at
1-based position `i+1`, one key per direct root child. -/
def keyListLoop : Nat → List H5Obj → List String
  | _, [] => []
  | i, f :: fs =>
      ((List.range f.rootChildren.length).map (fun n => mkKey (i + 1) (n + 1)))
        ++ keyListLoop (i + 1) fs

def sourceKeyList (s : NexusDataSource) : List String :=
  keyListLoop 0 s.sourceObjectList

structure SourceInfo where
  sourceType : String
  keyList : List String
  size : Nat

/-- `__getSourceInfo`: `SourceType`, the key list, and `Size` set to the key
list's length. -/
def getSourceInfo (s : NexusDataSource) : SourceInfo :=
  ⟨"HDF5", sourceKeyList s, (sourceKeyList s).length⟩

/-- Python list indexing (supports negative indices; out-of-range is
`none`, i.e. `IndexError`). -/
def pyListGet (l : List α) (i : Int) : Option α :=
  if 0 ≤ i then l.get? i.toNat
  else if (-i).toNat ≤ l.length then l.get? (l.length - (-i).toNat) else none

/-- `__getKeyInfo`: split the key on `"."`, convert both parts with `int()`
(any failure is caught and yields `{}`), then index the file lists (an
out-of-range index would propagate as `IndexError`) and build the info
mapping with its four entries. -/
def privGetKeyInfo (s : NexusDataSource) (key : String) :
    Except String (List (String × String)) :=
  match splitOnDot key.data with
  | [a, b] =>
      match pyIntOfChars a, pyIntOfChars b with
      | some idx, some _entry =>
          match pyListGet s.sourceObjectList (idx - 1),
              pyListGet s.sourceName (idx - 1) with
          | some obj, some nm =>
              .ok [("SourceType", "HDF5"), ("SourceName", nm), ("Key", key),
                ("FileName", obj.name)]
          | _, _ => .error "IndexError"
      | _, _ => .ok []
  | _ => .ok []

/-- `getKeyInfo`: keys present in the catalogue's key list are delegated to
`__getKeyInfo`; any other key yields an empty mapping without raising. -/
def getKeyInfo (s : NexusDataSource) (key : String) :
    Except String (List (String × String)) :=
  if key ∈ sourceKeyList s then privGetKeyInfo s key else .ok []

inductive PyError where
  | keyError : String → PyError
  | typeError : String → PyError
  | valueError : String → PyError
  | indexError : String → PyError
deriving DecidableEq

/-- The `selection is None` branch of `getDataObject` (lines 310-319): split
the key (`key_split[1]` raises `IndexError` when there is no dot), convert
the first two parts with `int()` (`ValueError` on failure), rebuild
`actual_key` with `"%d.%d"`, raise `KeyError` when it is not in the source
keys, and otherwise execute `raise NotImplemented(...)` — which in Python 3
raises `TypeError` (`NotImplementedType` object is not callable) rather than
a `NotImplementedError`. -/
def getDataObjectNoSelection (s : NexusDataSource) (key : String) :
    Except PyError Unit :=
  match splitOnDot key.data with
  | k0 :: k1 :: _ =>
      match pyIntOfChars k0, pyIntOfChars k1 with
      | some i, some j =>
          let actual_key := String.mk (intToChars i ++ '.' :: intToChars j)
          if actual_key ∈ sourceKeyList s then
            .error (.typeError "NotImplementedType object is not callable")
          else
            .error (.keyError ("Key " ++ actual_key ++ " not in source keys"))
      | _, _ => .error (.valueError "invalid literal for int")
  | _ => .error (.indexError "list index out of range")

/-- Number of direct root children of the file at 0-based position `t`. -/
def childCount (fs : List H5Obj) (t : Nat) : Nat :=
  ((fs.get? t).map (fun f => f.rootChildren.length)).getD 0

/-- Total number of root children over a list of files. -/
def sumCounts (fs : List H5Obj) : Nat :=
  (fs.map (fun f => f.rootChildren.length)).sum

theorem keyListLoop_length (fs : List H5Obj) :
    ∀ i0, (keyListLoop i0 fs).length = sumCounts fs := by
  induction fs with
  | nil => intro i0; rfl
  | cons f rest ih =>
      intro i0
      simp [keyListLoop, sumCounts, ih]

/-- Every element of the key loop is a key `mkKey fi ei` whose file and
entry indices are in range, located exactly at the offset given by the
preceding files' child counts. -/
theorem keyListLoop_get (fs : List H5Obj) :
    ∀ i0 j key, (keyListLoop i0 fs).get? j = some key →
      ∃ t n, t < fs.length ∧ n < childCount fs t ∧
        key = mkKey (i0 + t + 1) (n + 1) ∧
        j = sumCounts (fs.take t) + n := by
  induction fs with
  | nil => intro i0 j key h; simp [keyListLoop] at h
  | cons f rest ih =>
      intro i0 j key h
      rw [keyListLoop] at h
      by_cases hj : j < f.rootChildren.length
      · rw [List.get?_append (by simpa using hj)] at h
        rw [List.get?_map, List.get?_range hj] at h
        have hkey : mkKey (i0 + 1) (j + 1) = key := by simpa using h
        exact ⟨0, j, by simp, by simpa [childCount] using hj, hkey.symm,
          by simp [sumCounts]⟩
      · rw [List.get?_append_right (by simpa using Nat.le_of_not_lt hj)] at h
        simp only [List.length_map, List.length_range] at h
        obtain ⟨t, n, ht, hn, hkey, hjj⟩ := ih (i0 + 1) _ _ h
        refine ⟨t + 1, n, by simpa using ht, by simpa [childCount] using hn,
          ?_, ?_⟩
        · rw [hkey]
          congr 1
          omega
        · simp only [List.take_succ_cons, sumCounts, List.map_cons,
            List.sum_cons]
          rw [← sumCounts]
          omega

/-- Conversely, every in-range (file, entry) pair appears in the key loop at
its expected offset. -/
theorem keyListLoop_get_rev (fs : List H5Obj) :
    ∀ i0 t n, t < fs.length → n < childCount fs t →
      (keyListLoop i0 fs).get? (sumCounts (fs.take t) + n) =
        some (mkKey (i0 + t + 1) (n + 1)) := by
  induction fs with
  | nil => intro i0 t n ht _; simp at ht
  | cons f rest ih =>
      intro i0 t n ht hn
      rw [keyListLoop]
      cases t with
      | zero =>
          have hn' : n < f.rootChildren.length := by
            simpa [childCount] using hn
          rw [List.take_zero]
          have h0 : sumCounts ([] : List H5Obj) = 0 := rfl
          rw [h0, Nat.zero_add,
            List.get?_append (by simpa using hn'),
            List.get?_map, List.get?_range hn']
          simp
      | succ t =>
          have ht' : t < rest.length := by simpa using ht
          have hn' : n < childCount rest t := by simpa [childCount] using hn
          have hsum : sumCounts ((f :: rest).take (t + 1)) =
              f.rootChildren.length + sumCounts (rest.take t) := by
            simp only [List.take_succ_cons, sumCounts, List.map_cons,
              List.sum_cons]
          rw [hsum]
          rw [List.get?_append_right (by simp; omega)]
          simp only [List.length_map, List.length_range]
          have harg : f.rootChildren.length + sumCounts (rest.take t) + n -
              f.rootChildren.length = sumCounts (rest.take t) + n := by omega
          rw [harg, ih (i0 + 1) t n ht' hn']
          congr 3
          omega

/-- C7. `Size` equals the KeyList length; the KeyList has one key per direct
root child over all files; every key at position `j` is `"fi.ei"` with
1-based in-range indices and `j` equal to the sum of the preceding files'
child counts plus the entry offset (file-first, then entry order); and
conversely every in-range pair occurs at exactly that position. -/
theorem getSourceInfo_spec (s : NexusDataSource) :
    (getSourceInfo s).size = (getSourceInfo s).keyList.length ∧
    (getSourceInfo s).keyList.length = sumCounts s.sourceObjectList ∧
    (∀ j key, (getSourceInfo s).keyList.get? j = some key →
      ∃ fi ei, 1 ≤ fi ∧ fi ≤ s.sourceObjectList.length ∧ 1 ≤ ei ∧
        ei ≤ childCount s.sourceObjectList (fi - 1) ∧ key = mkKey fi ei ∧
        j = sumCounts (s.sourceObjectList.take (fi - 1)) + (ei - 1)) ∧
    (∀ fi ei, 1 ≤ fi → fi ≤ s.sourceObjectList.length → 1 ≤ ei →
      ei ≤ childCount s.sourceObjectList (fi - 1) →
      (getSourceInfo s).keyList.get?
          (sumCounts (s.sourceObjectList.take (fi - 1)) + (ei - 1)) =
        some (mkKey fi ei)) := by
  refine ⟨rfl, keyListLoop_length _ 0, ?_, ?_⟩
  · intro j key h
    obtain ⟨t, n, ht, hn, hkey, hjj⟩ := keyListLoop_get _ 0 j key h
    have h01 : (0 : Nat) + t + 1 = t + 1 := by omega
    rw [h01] at hkey
    refine ⟨t + 1, n + 1, by omega, by omega, by omega, ?_, hkey, ?_⟩
    · simpa using hn
    · simpa using hjj
  · intro fi ei h1 h2 h3 h4
    have := keyListLoop_get_rev s.sourceObjectList 0 (fi - 1) (ei - 1)
      (by omega) (by omega)
    have e1 : (0 : Nat) + (fi - 1) + 1 = fi := by omega
    have e2 : ei - 1 + 1 = ei := by omega
    rw [e1, e2] at this
    exact this

/-- A concrete two-file catalogue (2 and 1 root children). -/
def demoSource : NexusDataSource :=
  ⟨["fileA.h5", "fileB.h5"],
    [⟨["entry1", "entry2"], "/"⟩, ⟨["entryA"], "/"⟩]⟩

/-- C7 witness: on the two-file demo catalogue the key at position 2 is
`"2.1"`, and the characterization applies to it. -/
theorem getSourceInfo_spec_witness :
    (getSourceInfo demoSource).keyList.get? 2 = some "2.1" ∧
    ∃ fi ei, 1 ≤ fi ∧ fi ≤ demoSource.sourceObjectList.length ∧ 1 ≤ ei ∧
      ei ≤ childCount demoSource.sourceObjectList (fi - 1) ∧
      "2.1" = mkKey fi ei ∧
      2 = sumCounts (demoSource.sourceObjectList.take (fi - 1)) + (ei - 1) :=
  ⟨by decide, (getSourceInfo_spec demoSource).2.2.1 2 "2.1" (by decide)⟩

/-- `__getKeyInfo` on a well-formed key: both list lookups succeed and the
four-entry info mapping is returned. -/
theorem privGetKeyInfo_mkKey (s : NexusDataSource) (fi ei : Nat)
    (h1 : 1 ≤ fi) (h2 : fi ≤ s.sourceObjectList.length)
    (hpar : s.sourceName.length = s.sourceObjectList.length) :
    ∃ obj nm, s.sourceObjectList.get? (fi - 1) = some obj ∧
      s.sourceName.get? (fi - 1) = some nm ∧
      privGetKeyInfo s (mkKey fi ei) =
        .ok [("SourceType", "HDF5"), ("SourceName", nm),
          ("Key", mkKey fi ei), ("FileName", obj.name)] := by
  have hlt1 : fi - 1 < s.sourceObjectList.length := by omega
  have hlt2 : fi - 1 < s.sourceName.length := by omega
  refine ⟨s.sourceObjectList.get ⟨fi - 1, hlt1⟩,
    s.sourceName.get ⟨fi - 1, hlt2⟩,
    List.get?_eq_get hlt1, List.get?_eq_get hlt2, ?_⟩
  have hsplit : splitOnDot (mkKey fi ei).data =
      [natToChars fi, natToChars ei] := by
    show splitOnDot (natToChars fi ++ '.' :: natToChars ei) = _
    rw [splitOnDot_append _ _ (natToChars_no_dot _),
      splitOnDot_no_dot _ (natToChars_no_dot _)]
  have htn : ((fi : Int) - 1).toNat = fi - 1 := by omega
  have hget1 : pyListGet s.sourceObjectList ((fi : Int) - 1) =
      some (s.sourceObjectList.get ⟨fi - 1, hlt1⟩) := by
    rw [pyListGet, if_pos (by omega), htn]
    exact List.get?_eq_get hlt1
  have hget2 : pyListGet s.sourceName ((fi : Int) - 1) =
      some (s.sourceName.get ⟨fi - 1, hlt2⟩) := by
    rw [pyListGet, if_pos (by omega), htn]
    exact List.get?_eq_get hlt2
  simp only [privGetKeyInfo, hsplit, pyIntOfChars_natToChars, hget1, hget2]

/-- C6. `getKeyInfo` returns the empty mapping (and does not raise) for every
key not in the catalogue's KeyList, and for every key in the KeyList it
returns a mapping whose entries are exactly `SourceType`, `SourceName`,
`Key`, `FileName`. -/
theorem getKeyInfo_spec (s : NexusDataSource) (key : String)
    (hpar : s.sourceName.length = s.sourceObjectList.length) :
    (key ∉ sourceKeyList s → getKeyInfo s key = .ok []) ∧
    (key ∈ sourceKeyList s → ∃ info, getKeyInfo s key = .ok info ∧
      info.map Prod.fst = ["SourceType", "SourceName", "Key", "FileName"]) := by
  constructor
  · intro hmem
    rw [getKeyInfo, if_neg hmem]
  · intro hmem
    obtain ⟨j, hj⟩ := List.get?_of_mem hmem
    obtain ⟨t, n, ht, hn, hkey, _⟩ := keyListLoop_get _ 0 j key hj
    have h01 : (0 : Nat) + t + 1 = t + 1 := by omega
    rw [h01] at hkey
    subst hkey
    obtain ⟨obj, nm, _, _, hpriv⟩ := privGetKeyInfo_mkKey s (t + 1) (n + 1)
      (by omega) (by omega) hpar
    rw [getKeyInfo, if_pos hmem, hpriv]
    exact ⟨_, rfl, rfl⟩

/-- A concrete catalogue with exactly 2 keys (`"1.1"`, `"1.2"`). -/
def demoSource2 : NexusDataSource :=
  ⟨["f.h5"], [⟨["e1", "e2"], "/"⟩]⟩

/-- C6 witness: `getKeyInfo "9.9"` on a catalogue with 2 keys returns the
empty mapping, and `getKeyInfo "1.2"` returns the four-entry mapping. -/
theorem getKeyInfo_spec_witness :
    (getKeyInfo demoSource2 "9.9" = .ok []) ∧
    (∃ info, getKeyInfo demoSource2 "1.2" = .ok info ∧
      info.map Prod.fst = ["SourceType", "SourceName", "Key", "FileName"]) :=
  ⟨(getKeyInfo_spec demoSource2 "9.9" rfl).1 (by decide),
    (getKeyInfo_spec demoSource2 "1.2" rfl).2 (by decide)⟩

/-- C10. With `selection=None`, `getDataObject` never returns an output
record: every key produces an error; a well-formed key not in the KeyList
produces `KeyError` naming the (normalized) key; a key in the KeyList
reaches `raise NotImplemented(...)`, which in Python 3 surfaces as a
`TypeError` (`NotImplementedType` is not callable) rather than the intended
`NotImplementedError`. -/
theorem getDataObjectNoSelection_spec (s : NexusDataSource) :
    (∀ key, ∃ e, getDataObjectNoSelection s key = .error e) ∧
    (∀ fi ei, mkKey fi ei ∉ sourceKeyList s →
      getDataObjectNoSelection s (mkKey fi ei) =
        .error (.keyError ("Key " ++ mkKey fi ei ++ " not in source keys"))) ∧
    (∀ key, key ∈ sourceKeyList s →
      getDataObjectNoSelection s key =
        .error (.typeError "NotImplementedType object is not callable")) := by
  have hred : ∀ fi ei : Nat, splitOnDot (mkKey fi ei).data =
      [natToChars fi, natToChars ei] := by
    intro fi ei
    show splitOnDot (natToChars fi ++ '.' :: natToChars ei) = _
    rw [splitOnDot_append _ _ (natToChars_no_dot _),
      splitOnDot_no_dot _ (natToChars_no_dot _)]
  refine ⟨?_, ?_, ?_⟩
  · intro key
    rcases hsp : splitOnDot key.data with _ | ⟨k0, _ | ⟨k1, rest⟩⟩
    · exact ⟨_, by simp only [getDataObjectNoSelection, hsp]; rfl⟩
    · exact ⟨_, by simp only [getDataObjectNoSelection, hsp]; rfl⟩
    · rcases h0 : pyIntOfChars k0 with _ | i
      · exact ⟨_, by simp only [getDataObjectNoSelection, hsp, h0]; rfl⟩
      · rcases h1 : pyIntOfChars k1 with _ | j
        · exact ⟨_, by simp only [getDataObjectNoSelection, hsp, h0, h1]; rfl⟩
        · by_cases hm : String.mk (intToChars i ++ '.' :: intToChars j) ∈
              sourceKeyList s
          · exact ⟨_, by
              simp only [getDataObjectNoSelection, hsp, h0, h1]
              rw [if_pos hm]⟩
          · exact ⟨_, by
              simp only [getDataObjectNoSelection, hsp, h0, h1]
              rw [if_neg hm]⟩
  · intro fi ei hnot
    simp only [getDataObjectNoSelection, hred fi ei, pyIntOfChars_natToChars]
    rw [intToChars_ofNat, intToChars_ofNat]
    rw [if_neg (by exact hnot)]
    rfl
  · intro key hmem
    obtain ⟨j, hj⟩ := List.get?_of_mem hmem
    obtain ⟨t, n, ht, hn, hkey, _⟩ := keyListLoop_get _ 0 j key hj
    have h01 : (0 : Nat) + t + 1 = t + 1 := by omega
    rw [h01] at hkey
    subst hkey
    simp only [getDataObjectNoSelection, hred (t + 1) (n + 1),
      pyIntOfChars_natToChars]
    rw [intToChars_ofNat, intToChars_ofNat]
    rw [if_pos (by exact hmem)]

/-- C10 witness: on the demo catalogue, `"7.7"` yields the named `KeyError`
and the valid key `"1.2"` yields the `TypeError` from
`raise NotImplemented(...)`. -/
theorem getDataObjectNoSelection_spec_witness :
    (getDataObjectNoSelection demoSource (mkKey 7 7) =
      .error (.keyError ("Key " ++ mkKey 7 7 ++ " not in source keys"))) ∧
    (getDataObjectNoSelection demoSource "1.2" =
      .error (.typeError "NotImplementedType object is not callable")) :=
  ⟨(getDataObjectNoSelection_spec demoSource).2.1 7 7 (by decide),
    (getDataObjectNoSelection_spec demoSource).2.2 "1.2" (by decide)⟩

/-! ## `getTitle` (`NexusTools.py` lines 139-182) and the guarded title
lookup of `getDataObject` (`NexusDataSource.py` lines 327-332)

Title dataset values are modelled as already-read `[()]` results: Python
strings (`text`), byte strings (`bytes`, carrying their UTF-8 decoding), or
arrays of such values. -/

def rstripSlash (l : List Char) : List Char :=
  (l.reverse.dropWhile (fun c => c = '/')).reverse

/-- `posixpath.dirname`: everything up to the last `/`, with trailing
slashes stripped unless the head is all slashes. -/
def posixDirname (p : List Char) : List Char :=
  let tailLen := (p.reverse.takeWhile (fun c => ¬ c = '/')).length
  if tailLen = p.length then []
  else
    let head := p.take (p.length - tailLen)
    if head.all (fun c => c = '/') then head else rstripSlash head

/-- The upward walk of `getEntryName`:
`while len(candidate) > 1: entry_name = candidate; candidate = dirname(...)`
(fuelled; the path length bounds the iterations). -/
def getEntryNameLoop : Nat → List Char → List Char
  | 0, e => e
  | fuel + 1, e =>
      let candidate := posixDirname e
      if 1 < candidate.length then getEntryNameLoop fuel candidate else e

/-- `getEntryName(path)` (without the external-link fixup, which only
renames the entry when the literal top segment is absent from the file). -/
def getEntryName (path : String) : String :=
  String.mk (getEntryNameLoop (path.data.length + 1) path.data)

inductive TitleVal where
  | text : String → TitleVal
  | bytes : String → TitleVal
  | arr : List TitleVal → TitleVal

/-- An entry of an HDF5 file as seen by `getTitle`: whether it is a group
and the value of its `title` member, when present. -/
structure TEntry where
  isGroup : Bool
  title : Option TitleVal

structure TFile where
  entries : List (String × TEntry)

/-- `if len(title) == 1: title = title[0]` (applied only to array values,
which are the ones with a `dtype`). -/
def unwrapSingle : TitleVal → TitleVal
  | .arr [v] => v
  | v => v

/-- `if hasattr(title, "decode"): title = title.decode("utf-8")`. -/
def decodeBytes : TitleVal → TitleVal
  | .bytes s => .text s
  | v => v

/-- `NexusTools.getTitle`: read the `title` member of the entry containing
`path`; unwrap single-element arrays and decode byte strings; `''` when the
entry is not a group or has no title.  Looking up a missing entry raises
(`h5file[entry_name]` → `KeyError`). -/
def getTitle (f : TFile) (path : String) : Except String TitleVal :=
  match f.entries.lookup (getEntryName path) with
  | none => .error ("KeyError " ++ getEntryName path)
  | some e =>
      if e.isGroup then
        match e.title with
        | some t => .ok (decodeBytes (unwrapSingle t))
        | none => .ok (.text "")
      else .ok (.text "")

/-- The title step of `getDataObject`: any exception from `getTitle` is
caught and the title set to the empty string. -/
def titleInfoOf (f : TFile) (path : String) : TitleVal :=
  match getTitle f path with
  | .ok t => t
  | .error _ => .text ""

/-- C9. The guarded title lookup never raises: a missing entry (the read
error case) and a missing title both give the empty string; a plain-text
title is returned as is; a byte-string title is decoded to text; a
single-element array wrapping a byte string is unwrapped and decoded. -/
theorem titleInfoOf_spec (f : TFile) (path : String) (s : String)
    (e : TEntry) :
    (f.entries.lookup (getEntryName path) = none →
      titleInfoOf f path = .text "") ∧
    (∀ err, getTitle f path = .error err → titleInfoOf f path = .text "") ∧
    (f.entries.lookup (getEntryName path) = some e → e.title = none →
      titleInfoOf f path = .text "") ∧
    (f.entries.lookup (getEntryName path) = some e → e.isGroup = true →
      e.title = some (.text s) → titleInfoOf f path = .text s) ∧
    (f.entries.lookup (getEntryName path) = some e → e.isGroup = true →
      e.title = some (.bytes s) → titleInfoOf f path = .text s) ∧
    (f.entries.lookup (getEntryName path) = some e → e.isGroup = true →
      e.title = some (.arr [.bytes s]) → titleInfoOf f path = .text s) := by
  refine ⟨?_, ?_, ?_, ?_, ?_, ?_⟩
  · intro hlook
    simp only [titleInfoOf, getTitle, hlook]
  · intro err herr
    simp only [titleInfoOf, herr]
  · intro hlook htitle
    simp only [titleInfoOf, getTitle, hlook, htitle]
    cases hg : e.isGroup <;> simp
  · intro hlook hg htitle
    simp only [titleInfoOf, getTitle, hlook, hg, htitle, if_true]
    rfl
  · intro hlook hg htitle
    simp only [titleInfoOf, getTitle, hlook, hg, htitle, if_true]
    rfl
  · intro hlook hg htitle
    simp only [titleInfoOf, getTitle, hlook, hg, htitle, if_true]
    rfl

/-- A one-entry file whose `/e1` entry holds a byte-string title. -/
def demoTitleFile : TFile :=
  ⟨[("/e1", ⟨true, some (.bytes "hello")⟩)]⟩

/-- C9 witness: on the demo file, the title of the entry containing
`/e1/data` is the decoded byte string, and a path to a missing entry gives
the empty string. -/
theorem titleInfoOf_spec_witness :
    titleInfoOf demoTitleFile "/e1/data" = .text "hello" ∧
    titleInfoOf demoTitleFile "/nope/data" = .text "" :=
  ⟨(titleInfoOf_spec demoTitleFile "/e1/data" "hello"
      ⟨true, some (.bytes "hello")⟩).2.2.2.2.1 rfl rfl rfl,
    (titleInfoOf_spec demoTitleFile "/nope/data" ""
      ⟨true, none⟩).1 rfl⟩

end PyMcaNexus
